import Mathlib

/-!
Shallow embedding of the synchronization-engine portions of `sparcur/cli.py`
(clone, pull rename logging, refresh ordering and error policy, find/fetch
size limits, duplicate resolution, stash/restore), together with theorems
checking the specification's claims about them.

Paths are modelled as their component lists (`pathlib.PurePath.parts`),
machine values as `Nat`/`Int`, fallible code as `Except`.
-/

/-- A filesystem path as its list of components (`PurePath.parts`). -/
abbrev PathParts := List String

/-- `PurePath.as_posix()`: the components joined by `/`. -/
def posix (ps : PathParts) : String := String.intercalate "/" ps

/-- Lexicographic order on code-point sequences: how Python compares strings. -/
def chLt : List Char → List Char → Bool
  | [], [] => false
  | [], _ :: _ => true
  | _ :: _, [] => false
  | a :: as, b :: bs =>
    if a.toNat < b.toNat then true
    else if b.toNat < a.toNat then false
    else chLt as bs

/-- Python `s1 < s2` on strings. -/
def strLt (s1 s2 : String) : Bool := chLt s1.data s2.data

/-- `pathlib.PurePath.parents`: the proper ancestor prefixes of a path,
longest (immediate parent) first. -/
def Main.parents (p : PathParts) : List PathParts :=
  (List.range p.length).reverse.map (fun n => p.take n)

/-! ### refresh: the `update_cache` application loop (cli.py `Main.refresh`, lines 664-685) -/

/-- `errno.ENOENT` (Python raises `OSError` with this errno as `FileNotFoundError`). -/
def ENOENT : Nat := 2

/-- `errno.ENOTEMPTY` ("directory not empty"). -/
def ENOTEMPTY : Nat := 39

/-- Outcome of `r.update_cache()` for one refreshed path: either the new local
path after a possible move, or an `OSError` identified by its errno. -/
inductive UpdateOutcome
  | ok (newLocal : String)
  | err (errno : Nat)
deriving DecidableEq, Repr

/-- The loop of `Main.refresh` that applies each path's cache update
(cli.py lines 664-685): `FileNotFoundError` (errno `ENOENT`) records the old
local path in `parent_moved` and continues; an `OSError` with errno
`ENOTEMPTY` is logged and the path skipped; any other `OSError` is re-raised,
aborting the loop.  Returns `(parent_moved, moved)` on success. -/
def Main.refreshApplyUpdates :
    List (String × UpdateOutcome) → Except Nat (List String × List (String × String))
  | [] => Except.ok ([], [])
  | (oldl, o) :: rest =>
    match o with
    | UpdateOutcome.ok newl =>
      (Main.refreshApplyUpdates rest).map
        (fun r => (r.1, if oldl ≠ newl then (oldl, newl) :: r.2 else r.2))
    | UpdateOutcome.err e =>
      if e = ENOENT then
        (Main.refreshApplyUpdates rest).map (fun r => (oldl :: r.1, r.2))
      else if e = ENOTEMPTY then
        Main.refreshApplyUpdates rest
      else
        Except.error e

/-! ### Fix.duplicates: ranking of duplicate paths (cli.py lines 1642-1673) -/

/-- One local path in a duplicate group.  Modelled from the spec: the cached
`PathMeta` record lives in `sparcur/paths.py`, which is not under `src/`; per
the spec a path may have cached metadata (with an `updated` timestamp) or no
cached metadata at all, and `bool(meta)` is falsy exactly when the metadata is
absent. -/
structure DupPath where
  name : String
  metaPresent : Bool
  updated : Option Int
deriving DecidableEq, Repr

/-- The sort key `mkey` of `Fix.duplicates` (cli.py lines 1658-1662):
`(not bool(mns), not bool(mns.updated), -mns.updated.timestamp())`. -/
def Fix.mkey (p : DupPath) : Bool × Bool × Int :=
  (!p.metaPresent, p.updated.isNone, -(p.updated.getD 0))

/-- `a ≤ b` on `Bool` with `False < True`, as Python compares booleans. -/
def boolLe (a b : Bool) : Bool := !a || b

/-- Lexicographic comparison of `mkey` tuples, as Python compares tuples. -/
def Fix.keyLe (k1 k2 : Bool × Bool × Int) : Bool :=
  if k1.1 ≠ k2.1 then boolLe k1.1 k2.1
  else if k1.2.1 ≠ k2.2.1 then boolLe k1.2.1 k2.2.1
  else decide (k1.2.2 ≤ k2.2.2)

/-- `sorted(l, key=mkey)` in `Fix.duplicates` (cli.py line 1664): Python's
stable sort, modelled by insertion sort on the `mkey` order. -/
def Fix.dupeOrder (group : List DupPath) : List DupPath :=
  List.insertionSort (fun a b => Fix.keyLe (Fix.mkey a) (Fix.mkey b) = true) group

/-- The canonical path of a duplicate group: the first element of the sorted
order (the `a` of `a.dedupe(b, pretend=True)`, cli.py line 1667). -/
def Fix.canonical (group : List DupPath) : Option DupPath :=
  (Fix.dupeOrder group).head?

/-! ### Options.limit and the find size filter (cli.py lines 193-198, 944-998) -/

/-- `Options.limit` (cli.py lines 193-198): parse `--limit`; a negative value
returns `None` (no bound). -/
def Options.limit (l : Int) : Option Int := if l ≥ 0 then some l else none

/-- A candidate path in `Main.find`: whether the local file exists on disk
(`p.exists()`), its local size (`p.size`, meaningful only when it exists), and
the cached remote size (`p.cache.meta.size`), absent when unknown. -/
structure FindPath where
  name : String
  onDisk : Bool
  localSize : Nat
  cachedSize : Option Nat
deriving DecidableEq, Repr

/-- Modelled from the spec: `FileSize.mb` (augpathlib, outside this
repository) — the size in mebibytes, bytes divided by 2^20, as an exact
rational. -/
def FileSize.mb (bytes : Nat) : ℚ := Rat.divInt bytes 1048576

/-- An integer megabyte limit as an exact rational, for comparison against
`FileSize.mb`. -/
def limQ (lim : Int) : ℚ := Rat.divInt lim 1

/-- Python truthiness of the parsed `--limit` option (`if self.options.limit:`,
cli.py line 961): `None` and `0` are falsy. -/
def limitTruthy : Option Int → Bool
  | none => false
  | some l => decide (l ≠ 0)

/-- The per-path keep condition of the find size filter (cli.py lines 963-970):
keep when the cached size is unknown, or `--exists` was passed, or the
placeholder's cached size is under the limit, or the file exists with a size
mismatch (truncated transfer) and the cached size is under the limit. -/
def Main.findKeep (lim : Int) (searchExists : Bool) (p : FindPath) : Bool :=
  match p.cachedSize with
  | none => true
  | some s =>
    searchExists ||
    (!p.onDisk && decide (FileSize.mb s < limQ lim)) ||
    (p.onDisk && decide (p.localSize ≠ s) && decide (FileSize.mb s < limQ lim))

/-- The size filter of `Main.find` (cli.py lines 961-970), applied only when
the parsed limit is truthy. -/
def Main.findSizeFilter (limit : Option Int) (searchExists : Bool)
    (paths : List FindPath) : List FindPath :=
  match limit with
  | some lim => if limitTruthy (some lim) then paths.filter (Main.findKeep lim searchExists) else paths
  | none => paths

/-- Result of `cache.fetch(size_limit_mb=...)` for one path. -/
inductive FetchResult
  | skipped
  | transferred
deriving DecidableEq, Repr

/-- Modelled from the spec: `cache.fetch(size_limit_mb=...)`
(`sparcur/paths.py`, not under `src/`): the size limit is enforced before any
transfer — when a limit is given and the cached size exceeds it, the fetch is
skipped, not attempted. -/
def Cache.fetch (sizeLimitMb : Option Int) (p : FindPath) : FetchResult :=
  match sizeLimitMb, p.cachedSize with
  | some lim, some s =>
    if limQ lim < FileSize.mb s then FetchResult.skipped else FetchResult.transferred
  | _, _ => FetchResult.transferred

/-- Effect of a fetch result on the local path: a skipped fetch leaves the
placeholder unchanged; a transfer materializes the content. -/
def applyFetch (p : FindPath) (r : FetchResult) : FindPath :=
  match r with
  | FetchResult.skipped => p
  | FetchResult.transferred =>
    { p with onDisk := true, localSize := p.cachedSize.getD p.localSize }

/-- `Main.find` followed by the fetch fan-out (cli.py lines 961-994): the
filtered candidate list paired with each path's fetch outcome. -/
def Main.findFetchOutcomes (limit : Option Int) (searchExists : Bool)
    (paths : List FindPath) : List (FindPath × FetchResult) :=
  (Main.findSizeFilter limit searchExists paths).map (fun p => (p, Cache.fetch limit p))

/-! ### pull: the rename log (cli.py `Main.pull`, lines 566-578) -/

/-- A cache object as compared and printed by `Main.pull`: its local path
string (pathlib equality and `str()` both use the path) and its remote id. -/
structure CacheView where
  path : String
  id : String
deriving DecidableEq, Repr

/-- A directory child of the organization in `Main.pull`: the cache before
(`oc`) and after (`nc`) the call `nc = oc.refresh()`. -/
structure OrgChild where
  oc : CacheView
  nc : CacheView
deriving DecidableEq, Repr

/-- `nc != oc` (cli.py line 574): pathlib compares caches by path. -/
def Main.childMoved (c : OrgChild) : Bool := decide (c.nc.path ≠ c.oc.path)

/-- The line written for one detected move
(`f'{oc} -> {nc} -> {nc.id}\n'`, cli.py line 578). -/
def Main.renameLine (c : OrgChild) : String :=
  c.oc.path ++ " -> " ++ c.nc.path ++ " -> " ++ c.nc.id

/-- The rename-log writes of `Main.pull` (cli.py lines 566-578): the log file,
opened in append mode, gains one line per child whose refreshed cache differs
from the old one.  The log is modelled as its list of lines. -/
def Main.pullRenameLog (log : List String) (children : List OrgChild) : List String :=
  children.foldl (fun acc c => if Main.childMoved c then acc ++ [Main.renameLine c] else acc) log

/-! ### refresh: ordering of directory and file refreshes (cli.py lines 630-704) -/

/-- A path known to `Main.refresh`'s expansion `self._paths`. -/
structure RefreshPath where
  parts : PathParts
  isDir : Bool
deriving DecidableEq, Repr

/-- `to_root` (cli.py lines 636-640): the set of ancestors of the requested
paths that have a cache, sorted by `len(p.parts)` (shallowest first). -/
def Main.refreshToRoot (hasCache : PathParts → Bool) (paths : List PathParts) : List PathParts :=
  List.insertionSort (fun a b => a.length ≤ b.length)
    ((paths.flatMap (fun p => (Main.parents p).filter hasCache)).dedup)

/-- One unit of work performed by `Main.refresh`. -/
inductive REvent
  | dirUpdate (p : PathParts)
  | fileRefresh (p : PathParts)
deriving DecidableEq, Repr

/-- Whether an event is a directory refresh/cache update. -/
def REvent.isDirUpdate : REvent → Bool
  | REvent.dirUpdate _ => true
  | REvent.fileRefresh _ => false

/-- The order in which `Main.refresh` performs its work (cli.py lines 636-704):
first the cache updates of `to_root` followed by the requested directories
(lines 655-685, applied in the order of `chain(to_root, self._dirs)`), then the
refreshes of the non-directory paths (lines 697-704). -/
def Main.refreshEvents (hasCache : PathParts → Bool) (paths : List PathParts)
    (allPaths : List RefreshPath) : List REvent :=
  ((Main.refreshToRoot hasCache paths
      ++ (allPaths.filter (fun p => p.isDir)).map RefreshPath.parts).map REvent.dirUpdate)
    ++ ((allPaths.filter (fun p => !p.isDir)).map (fun p => REvent.fileRefresh p.parts))

/-! ### clone (cli.py `Main.clone`, lines 483-521) -/

/-- Failures of `BlackfynnRemote.dropAnchor`. -/
inductive DropAnchorErr
  | directoryNotEmpty
  | otherErr
deriving DecidableEq, Repr

/-- Modelled from the spec: `BlackfynnRemote.dropAnchor`
(`sparcur/backends.py`, not under `src/`): establishing a new anchor fails
with `DirectoryNotEmptyError` when the local target already contains entries,
performing no filesystem mutation; otherwise it returns the anchor. -/
def Remote.dropAnchor (targetNonEmpty : Bool) (target : String) : Except DropAnchorErr String :=
  if targetNonEmpty then Except.error DropAnchorErr.directoryNotEmpty else Except.ok target

/-- The f-string `f'fatal: destination path {anchor} already exists and is not
an empty directory.'` (cli.py line 506).  `anchor` is a local variable of
`clone` that is bound only if `dropAnchor` returned normally; evaluating the
f-string with it unbound raises `UnboundLocalError`. -/
def Main.fmtFatalNotEmpty (anchorVar : Option String) : Except String String :=
  match anchorVar with
  | some a =>
    Except.ok ("fatal: destination path " ++ a ++ " already exists and is not an empty directory.")
  | none => Except.error "UnboundLocalError"

/-- How a `clone` invocation ends. -/
inductive CloneResult
  | proceeded (anchor : String)
  | exitedWith (code : Nat)
  | raised (exc : String)
deriving DecidableEq, Repr

/-- Observable outcome of `Main.clone`: how it ended, what it printed, and
which auxiliary directories it created. -/
structure CloneOutcome where
  result : CloneResult
  printed : List String
  mkdirs : List String
deriving DecidableEq, Repr

/-- `Main.clone` from the existing-root check onward (cli.py lines 496-515).
The handler for `DirectoryNotEmptyError` formats its message with the local
variable `anchor`, which the failed `try` never bound; the handler for the
existing-root case likewise references the unbound name `root`. -/
def Main.clone (existingRoot : Option String) (targetNonEmpty : Bool) (target : String) :
    CloneOutcome :=
  match existingRoot with
  | some _ =>
    { result := CloneResult.raised "NameError", printed := [], mkdirs := [] }
  | none =>
    match Remote.dropAnchor targetNonEmpty target with
    | Except.ok anchor =>
      { result := CloneResult.proceeded anchor, printed := [],
        mkdirs := ["local_data_dir", "local_objects_dir", "trash"] }
    | Except.error DropAnchorErr.directoryNotEmpty =>
      match Main.fmtFatalNotEmpty none with
      | Except.ok msg => { result := CloneResult.exitedWith 2, printed := [msg], mkdirs := [] }
      | Except.error e => { result := CloneResult.raised e, printed := [], mkdirs := [] }
    | Except.error DropAnchorErr.otherErr =>
      { result := CloneResult.exitedWith 11111, printed := [], mkdirs := [] }

/-! ### stash and restore (cli.py `Main.stash`, lines 1124-1179) -/

/-- Modelled from the spec: the content hash compared by `p.checksum()`
(`sparcur/paths.py`, not under `src/`); contents are modelled as `Nat` and the
hash as the identity on contents. -/
def checksum (content : Nat) : Nat := content

/-- One filesystem entry: its path, whether it is a directory, its content
(files; `0` for directories) and its cached metadata record. -/
structure FsEntry where
  parts : PathParts
  isDir : Bool
  content : Nat
  meta : Nat
deriving DecidableEq, Repr

/-- The filesystem as a list of entries. -/
abbrev Fs := List FsEntry

/-- Look up the entry at a path. -/
def lookupFs (fs : Fs) (p : PathParts) : Option FsEntry :=
  fs.find? (fun e => decide (e.parts = p))

/-- The content at a path (`0` when absent). -/
def contentAt (fs : Fs) (p : PathParts) : Nat :=
  ((lookupFs fs p).map FsEntry.content).getD 0

/-- The cached metadata at a path (`0` when absent). -/
def metaAt (fs : Fs) (p : PathParts) : Nat :=
  ((lookupFs fs p).map FsEntry.meta).getD 0

/-- `stash_base = self.anchor.local.parent / 'stash'` (cli.py line 1128). -/
def Main.stashBaseOf (anchor : PathParts) : PathParts := anchor.dropLast ++ ["stash"]

/-- `new_anchor = StashPath(stash_base, timestamp) / self.anchor.name`
(cli.py lines 1148-1149). -/
def Main.newAnchorOf (anchor : PathParts) (ts : String) : PathParts :=
  Main.stashBaseOf anchor ++ [ts, anchor.getLastD ""]

/-- `to_stash[1:]` (cli.py lines 1129-1131), after normalizing every element
relative to the anchor: each requested path's relative path together with its
proper relative ancestors (the `'.'` entry is the dropped `to_stash[0]`),
deduplicated as a set and sorted by `len(p.as_posix())`. -/
def Main.stashItems (anchor : PathParts) (paths : List PathParts) : List PathParts :=
  List.insertionSort (fun a b => (posix a).length ≤ (posix b).length)
    (((paths.map (fun p => p.drop anchor.length)).flatMap
        (fun r => r :: (Main.parents r).filter (fun q => decide (q ≠ [])))).dedup)

/-- The per-item body of the stash loop (cli.py lines 1152-1176): a directory
is mirrored as a placeholder carrying the source cache metadata; a file is
content-copied (`written` gives the bytes that actually land in the copy),
the checksums of source and copy are compared — `assert pc == npc` — and the
copy carries the source cache metadata. -/
def Main.stashGo (fs : Fs) (anchor newAnchor : PathParts) (written : PathParts → Nat) :
    List PathParts → Except String (List FsEntry)
  | [] => Except.ok []
  | q :: qs =>
    match lookupFs fs (anchor ++ q) with
    | none => Except.error "missing source path"
    | some e =>
      if e.isDir then
        (Main.stashGo fs anchor newAnchor written qs).map
          (fun rest => ⟨newAnchor ++ q, true, 0, e.meta⟩ :: rest)
      else
        let c := written (anchor ++ q)
        if checksum e.content = checksum c then
          (Main.stashGo fs anchor newAnchor written qs).map
            (fun rest => ⟨newAnchor ++ q, false, c, e.meta⟩ :: rest)
        else
          Except.error "checksum mismatch"

/-- `Main.stash`, snapshot direction (cli.py lines 1146-1179): create the new
timestamped stash anchor (with the anchor's cache metadata) and stash every
item.  Returns the filesystem extended with the stash subtree. -/
def Main.stash (fs : Fs) (anchor : PathParts) (ts : String) (written : PathParts → Nat)
    (paths : List PathParts) : Except String Fs :=
  match lookupFs fs anchor with
  | none => Except.error "missing anchor"
  | some ae =>
    (Main.stashGo fs anchor (Main.newAnchorOf anchor ts) written
        (Main.stashItems anchor paths)).map
      (fun entries => fs ++ ⟨Main.newAnchorOf anchor ts, true, 0, ae.meta⟩ :: entries)

/-- Whether `p` is a strict descendant of `base` (`base.rchildren`). -/
def isUnder (base p : PathParts) : Bool :=
  base.isPrefixOf p && decide (base.length < p.length)

/-- `p.parts[-len(relp):] == relp` (cli.py line 1139): the trailing components
of `parts` equal `relp` (Python's `[-0:]` takes the whole tuple). -/
def sliceTailEq (parts relp : PathParts) : Bool :=
  if relp.length = 0 then decide (parts = relp)
  else decide (parts.drop (parts.length - relp.length) = relp)

/-- `p.copy_to(path, force=True, copy_cache_meta=True)` (cli.py line 1140):
overwrite the content and cache metadata at `path`, creating the entry if
needed. -/
def fsWrite (fs : Fs) (path : PathParts) (c m : Nat) : Fs :=
  if fs.any (fun e => decide (e.parts = path)) then
    fs.map (fun e => if e.parts = path then ⟨path, false, c, m⟩ else e)
  else
    fs ++ [⟨path, false, c, m⟩]

/-- `rcs` of the restore branch (cli.py line 1135): the non-directory entries
under the stash base, sorted by `as_posix()` descending (so entries of the
newest stash come first). -/
def Main.restoreRcs (fs : Fs) (anchor : PathParts) : Fs :=
  List.insertionSort (fun a b : FsEntry => strLt (posix a.parts) (posix b.parts) = false)
    (fs.filter (fun e => isUnder (Main.stashBaseOf anchor) e.parts && !e.isDir))

/-- One step of the restore loop (cli.py lines 1136-1142): the first entry of
`rcs` whose trailing components match the path's anchor-relative parts is
copied back onto it; if none matches, nothing happens. -/
def Main.restoreStep (rcs : Fs) (anchor : PathParts) (acc : Fs) (path : PathParts) : Fs :=
  match rcs.find? (fun e => sliceTailEq e.parts (path.drop anchor.length)) with
  | some e => fsWrite acc path e.content e.meta
  | none => acc

/-- `Main.stash`, restore direction (cli.py lines 1133-1144). -/
def Main.restore (fs : Fs) (anchor : PathParts) (paths : List PathParts) : Fs :=
  paths.foldl (Main.restoreStep (Main.restoreRcs fs anchor) anchor) fs


/-! ### Concrete filesystem used to exercise stash/restore -/

/-- Example anchor `home/proj`. -/
def exAnchor : PathParts := ["home", "proj"]

/-- Example file `home/proj/a/b` (content 1). -/
def exP1 : PathParts := ["home", "proj", "a", "b"]

/-- Example file `home/proj/x/a/b` (content 2); its relative parts end in the
relative parts `a/b` of `exP1`. -/
def exP2 : PathParts := ["home", "proj", "x", "a", "b"]

/-- Example project tree holding both files. -/
def exFs : Fs :=
  [⟨["home", "proj"], true, 0, 10⟩,
   ⟨["home", "proj", "a"], true, 0, 11⟩,
   ⟨["home", "proj", "x"], true, 0, 12⟩,
   ⟨["home", "proj", "x", "a"], true, 0, 13⟩,
   ⟨exP1, false, 1, 14⟩,
   ⟨exP2, false, 2, 15⟩]

/-- A faithful copy: the bytes landing in the stash are the source bytes. -/
def exWritten : PathParts → Nat := fun p => contentAt exFs p

/-- The filesystem after stashing only `exP2` (a collision-free stash). -/
def exStash2 : Fs := ((Main.stash exFs exAnchor "T1" exWritten [exP2]).toOption).getD []

/-! ## Theorems -/

/-- Totality of the `mkey` tuple order. -/
theorem keyLe_total (k1 k2 : Bool × Bool × Int) :
    Fix.keyLe k1 k2 = true ∨ Fix.keyLe k2 k1 = true := by
  obtain ⟨b1, c1, t1⟩ := k1
  obtain ⟨b2, c2, t2⟩ := k2
  cases b1 <;> cases b2 <;> cases c1 <;> cases c2 <;>
    simp [Fix.keyLe, boolLe] <;> omega

/-- Transitivity of the `mkey` tuple order. -/
theorem keyLe_trans {k1 k2 k3 : Bool × Bool × Int}
    (h12 : Fix.keyLe k1 k2 = true) (h23 : Fix.keyLe k2 k3 = true) :
    Fix.keyLe k1 k3 = true := by
  obtain ⟨b1, c1, t1⟩ := k1
  obtain ⟨b2, c2, t2⟩ := k2
  obtain ⟨b3, c3, t3⟩ := k3
  cases b1 <;> cases b2 <;> cases b3 <;> cases c1 <;> cases c2 <;> cases c3 <;>
    simp [Fix.keyLe, boolLe] at h12 h23 ⊢ <;> omega

/-- A strictly minimal element of a duplicate group is the canonical path. -/
theorem canonical_of_strict_min {group : List DupPath} {a : DupPath}
    (ha : a ∈ group)
    (hmin : ∀ b ∈ group, b ≠ a → Fix.keyLe (Fix.mkey b) (Fix.mkey a) = false) :
    Fix.canonical group = some a := by
  haveI : IsTotal DupPath (fun x y => Fix.keyLe (Fix.mkey x) (Fix.mkey y) = true) :=
    ⟨fun x y => keyLe_total _ _⟩
  haveI : IsTrans DupPath (fun x y => Fix.keyLe (Fix.mkey x) (Fix.mkey y) = true) :=
    ⟨fun x y z h1 h2 => keyLe_trans h1 h2⟩
  have hsorted :=
    List.sorted_insertionSort (fun x y => Fix.keyLe (Fix.mkey x) (Fix.mkey y) = true) group
  have hmem : a ∈ Fix.dupeOrder group := by
    unfold Fix.dupeOrder
    exact (List.mem_insertionSort _).2 ha
  unfold Fix.canonical
  rcases hlist : Fix.dupeOrder group with _ | ⟨h, t⟩
  · rw [hlist] at hmem
    cases hmem
  · have hsorted' : List.Sorted (fun x y => Fix.keyLe (Fix.mkey x) (Fix.mkey y) = true) (h :: t) := by
      rw [← hlist]
      exact hsorted
    by_cases hha : h = a
    · simp [hha]
    · have hhg : h ∈ group := by
        have : h ∈ Fix.dupeOrder group := by rw [hlist]; exact List.mem_cons_self h t
        unfold Fix.dupeOrder at this
        exact (List.mem_insertionSort _).1 this
    -- `a` is in the tail, so the sorted head is `≤ a`, contradicting strict minimality
      have hat : a ∈ t := by
        rw [hlist] at hmem
        rcases List.mem_cons.1 hmem with rfl | hmt
        · exact absurd rfl hha
        · exact hmt
      have hle : Fix.keyLe (Fix.mkey h) (Fix.mkey a) = true :=
        (List.sorted_cons.1 hsorted').1 a hat
      have hfalse := hmin h hhg hha
      rw [hle] at hfalse
      cases hfalse

/-- **C1.** In the cache-update loop of `Main.refresh`, a filesystem-level
"file not found" (`FileNotFoundError`, errno `ENOENT`) during the rename step
records the path as "parent moved" and processing continues with the remaining
paths; an `OSError` with errno `ENOTEMPTY` is logged and that path's refresh
is skipped without escalating; any other `OSError` propagates and aborts the
operation. -/
theorem refresh_error_policy :
    (∀ (p : String) (rest : List (String × UpdateOutcome)),
      Main.refreshApplyUpdates ((p, UpdateOutcome.err ENOENT) :: rest)
        = (Main.refreshApplyUpdates rest).map (fun r => (p :: r.1, r.2))) ∧
    (∀ (p : String) (rest : List (String × UpdateOutcome)),
      Main.refreshApplyUpdates ((p, UpdateOutcome.err ENOTEMPTY) :: rest)
        = Main.refreshApplyUpdates rest) ∧
    (∀ (p : String) (e : Nat) (rest : List (String × UpdateOutcome)),
      e ≠ ENOENT → e ≠ ENOTEMPTY →
      Main.refreshApplyUpdates ((p, UpdateOutcome.err e) :: rest) = Except.error e) := by
  refine ⟨fun p rest => ?_, fun p rest => ?_, fun p e rest h1 h2 => ?_⟩
  · simp [Main.refreshApplyUpdates]
  · simp [Main.refreshApplyUpdates, ENOENT, ENOTEMPTY]
  · simp [Main.refreshApplyUpdates, h1, h2]

/-- Witness for C1: a non-`ENOENT`, non-`ENOTEMPTY` `OSError` (errno 13,
`EACCES`) propagates out of the loop. -/
theorem refresh_error_policy_witness :
    Main.refreshApplyUpdates [("a", UpdateOutcome.err 13)] = Except.error 13 :=
  refresh_error_policy.2.2 "a" 13 [] (by decide) (by decide)

/-- **C2.** Duplicate resolution orders a group sharing one cached remote id
so that a path with cached metadata and a more recent `updated` timestamp
ranks strictly before others, a path with no metadata ranks strictly after
any path with metadata, and the first element of the resulting order is the
canonical path; concretely, for timestamps 100, 200 and a no-metadata path,
the timestamp-200 path is canonical and the no-metadata path is last. -/
theorem duplicates_ranking :
    (∀ a b : DupPath, a.metaPresent = true → b.metaPresent = false →
      Fix.keyLe (Fix.mkey a) (Fix.mkey b) = true ∧
        Fix.keyLe (Fix.mkey b) (Fix.mkey a) = false) ∧
    (∀ (a b : DupPath) (ta tb : Int), a.metaPresent = true → b.metaPresent = true →
      a.updated = some ta → b.updated = some tb → tb < ta →
      Fix.keyLe (Fix.mkey a) (Fix.mkey b) = true ∧
        Fix.keyLe (Fix.mkey b) (Fix.mkey a) = false) ∧
    (∀ (group : List DupPath) (a : DupPath), a ∈ group →
      (∀ b ∈ group, b ≠ a → Fix.keyLe (Fix.mkey b) (Fix.mkey a) = false) →
      Fix.canonical group = some a) ∧
    (Fix.dupeOrder [⟨"p1", true, some 100⟩, ⟨"p2", true, some 200⟩, ⟨"p3", false, none⟩]
      = [⟨"p2", true, some 200⟩, ⟨"p1", true, some 100⟩, ⟨"p3", false, none⟩]) ∧
    (Fix.canonical [⟨"p1", true, some 100⟩, ⟨"p2", true, some 200⟩, ⟨"p3", false, none⟩]
      = some ⟨"p2", true, some 200⟩) := by
  refine ⟨fun a b hma hmb => ?_, fun a b ta tb hma hmb hua hub hlt => ?_,
    fun group a ha hmin => canonical_of_strict_min ha hmin, by decide, by decide⟩
  · simp [Fix.mkey, Fix.keyLe, boolLe, hma, hmb]
  · simp [Fix.mkey, Fix.keyLe, boolLe, hma, hmb, hua, hub]
    omega

/-- Witness for C2: in a two-element group with timestamps 100 and 200, the
timestamp-200 path is canonical. -/
theorem duplicates_ranking_witness :
    Fix.canonical [⟨"p1", true, some 100⟩, ⟨"p2", true, some 200⟩]
      = some ⟨"p2", true, some 200⟩ :=
  duplicates_ranking.2.2.1 [⟨"p1", true, some 100⟩, ⟨"p2", true, some 200⟩]
    ⟨"p2", true, some 200⟩ (by decide) (by decide)

/-- **C5.** The rename log is append-only: a `pull` over the organization's
directory children leaves every existing line in place and appends exactly one
line `old_path -> new_path -> new_remote_id` per child whose refreshed cache
differs from the cached one (a detected move), in order. -/
theorem rename_log_append_only :
    ∀ (log : List String) (children : List OrgChild),
      Main.pullRenameLog log children
        = log ++ (children.filter Main.childMoved).map Main.renameLine := by
  intro log children
  induction children generalizing log with
  | nil => simp [Main.pullRenameLog]
  | cons c cs ih =>
    have hcons : Main.pullRenameLog log (c :: cs)
        = Main.pullRenameLog
            (if Main.childMoved c then log ++ [Main.renameLine c] else log) cs := rfl
    rw [hcons]
    cases h : Main.childMoved c with
    | false =>
      simp only [h, Bool.false_eq_true, if_false]
      rw [ih, List.filter_cons_of_neg (by simp [h])]
    | true =>
      simp only [h, if_true]
      rw [ih, List.filter_cons_of_pos h, List.map_cons, List.append_assoc,
        List.singleton_append]

/-- **C7** (supporting theorem for the code bug): cloning into a non-empty
target hits `DirectoryNotEmptyError`, whose handler evaluates an f-string over
the unbound local `anchor`; `Main.clone` therefore ends with an uncaught
`UnboundLocalError`, printing no fatal message and creating no auxiliary
directories (no filesystem mutation). -/
theorem clone_nonempty_unbound_local :
    Main.clone none true "target"
      = { result := CloneResult.raised "UnboundLocalError", printed := [], mkdirs := [] } := rfl

/-- **C9.** With a size limit in effect, a path whose cached metadata size is
unknown (`None`) is never excluded by the size filter of `find`. -/
theorem find_unknown_size_kept :
    ∀ (limit : Option Int) (searchExists : Bool) (paths : List FindPath) (p : FindPath),
      p ∈ paths → p.cachedSize = none →
      p ∈ Main.findSizeFilter limit searchExists paths := by
  intro limit se paths p hp hnone
  cases limit with
  | none => simpa [Main.findSizeFilter] using hp
  | some lim =>
    by_cases h : limitTruthy (some lim) = true
    · have hfil : Main.findSizeFilter (some lim) se paths
          = paths.filter (Main.findKeep lim se) := by
        simp [Main.findSizeFilter, h]
      rw [hfil]
      exact List.mem_filter.2 ⟨hp, by simp [Main.findKeep, hnone]⟩
    · have hfil : Main.findSizeFilter (some lim) se paths = paths := by
        simp [Main.findSizeFilter, h]
      rw [hfil]
      exact hp

/-- Witness for C9: a no-cached-size path survives the filter at limit 2. -/
theorem find_unknown_size_kept_witness :
    (⟨"u", false, 0, none⟩ : FindPath)
      ∈ Main.findSizeFilter (some 2) false [⟨"u", false, 0, none⟩] :=
  find_unknown_size_kept (some 2) false [⟨"u", false, 0, none⟩] ⟨"u", false, 0, none⟩
    (by decide) rfl

/-- **C10.** `--limit=0` disables size filtering in `find` entirely:
`Options.limit` parses `0` to the integer `0`, and since `0` is falsy the size
filter is not applied, so no path is excluded by size. -/
theorem limit_zero_disables_filter :
    Options.limit 0 = some 0 ∧
    ∀ (searchExists : Bool) (paths : List FindPath),
      Main.findSizeFilter (some 0) searchExists paths = paths := by
  refine ⟨rfl, fun se paths => ?_⟩
  simp [Main.findSizeFilter, limitTruthy]

/-- **C3.** A negative `--limit` parses to no bound at all; and for a path
with a known cached size exceeding a non-negative limit, the fetch pipeline of
`find` yields `skipped` for that path — the transfer is never attempted and
the placeholder state is unchanged. -/
theorem fetch_size_limit_enforced :
    (∀ l : Int, l < 0 → Options.limit l = none) ∧
    (∀ (lim : Int) (s : Nat) (paths : List FindPath) (p : FindPath) (r : FetchResult),
      0 ≤ lim → p.cachedSize = some s → limQ lim < FileSize.mb s →
      (p, r) ∈ Main.findFetchOutcomes (Options.limit lim) false paths →
      r = FetchResult.skipped ∧ applyFetch p r = p) := by
  constructor
  · intro l hl
    simp [Options.limit]
    omega
  · intro lim s paths p r h0 hs hgt hmem
    have hparse : Options.limit lim = some lim := by simp [Options.limit, h0]
    rw [hparse] at hmem
    obtain ⟨q, hq, heq⟩ := List.mem_map.1 hmem
    have hqp : q = p := congrArg Prod.fst heq
    have hr : r = Cache.fetch (some lim) p := by
      have := congrArg Prod.snd heq
      rw [hqp] at this
      exact this.symm
    have hskip : Cache.fetch (some lim) p = FetchResult.skipped := by
      unfold Cache.fetch
      rw [hs]
      simp [hgt]
    rw [hr, hskip]
    exact ⟨rfl, rfl⟩

/-- Witness for C3: a placeholder with cached size 50 MB and limit 0 is
skipped and left unchanged (and `--limit=-2` parses to no bound). -/
theorem fetch_size_limit_enforced_witness :
    Options.limit (-2) = none ∧
    FetchResult.skipped = FetchResult.skipped ∧
    applyFetch ⟨"f", false, 0, some 52428800⟩ FetchResult.skipped
      = ⟨"f", false, 0, some 52428800⟩ :=
  ⟨fetch_size_limit_enforced.1 (-2) (by decide),
   fetch_size_limit_enforced.2 0 52428800 [⟨"f", false, 0, some 52428800⟩]
     ⟨"f", false, 0, some 52428800⟩ FetchResult.skipped (by decide) rfl (by decide) (by decide)⟩

/-- **C6.** Within one `refresh` invocation: `to_root` — the cached ancestor
directories of the requested paths — is processed in order of increasing path
depth (component count, shallowest first); every cached ancestor of a
requested path appears as a directory cache-update event; and the whole event
sequence is all directory updates first, then all non-directory refreshes. -/
theorem refresh_ancestors_first :
    (∀ (hasCache : PathParts → Bool) (paths : List PathParts),
      List.Sorted (fun a b : PathParts => a.length ≤ b.length)
        (Main.refreshToRoot hasCache paths)) ∧
    (∀ (hasCache : PathParts → Bool) (paths : List PathParts) (allPaths : List RefreshPath)
        (p a : PathParts), p ∈ paths → a ∈ Main.parents p → hasCache a = true →
      REvent.dirUpdate a ∈ Main.refreshEvents hasCache paths allPaths) ∧
    (∀ (hasCache : PathParts → Bool) (paths : List PathParts) (allPaths : List RefreshPath),
      ∃ ds fls : List PathParts,
        Main.refreshEvents hasCache paths allPaths
          = ds.map REvent.dirUpdate ++ fls.map REvent.fileRefresh) := by
  refine ⟨fun hasCache paths => ?_, fun hasCache paths allPaths p a hp ha hc => ?_,
    fun hasCache paths allPaths => ?_⟩
  · haveI : IsTotal PathParts (fun a b : PathParts => a.length ≤ b.length) :=
      ⟨fun a b => Nat.le_total _ _⟩
    haveI : IsTrans PathParts (fun a b : PathParts => a.length ≤ b.length) :=
      ⟨fun a b c h1 h2 => Nat.le_trans h1 h2⟩
    exact List.sorted_insertionSort _ _
  · unfold Main.refreshEvents
    refine List.mem_append_left _
      (List.mem_map_of_mem REvent.dirUpdate (List.mem_append_left _ ?_))
    unfold Main.refreshToRoot
    refine (List.mem_insertionSort _).2 (List.mem_dedup.2 ?_)
    exact List.mem_flatMap.2 ⟨p, hp, List.mem_filter.2 ⟨ha, hc⟩⟩
  · refine ⟨Main.refreshToRoot hasCache paths
        ++ (allPaths.filter (fun q => q.isDir)).map RefreshPath.parts,
      (allPaths.filter (fun q => !q.isDir)).map RefreshPath.parts, ?_⟩
    unfold Main.refreshEvents
    rw [List.map_map]
    rfl

/-- Witness for C6: with requested path `r/d/f` and a cache on its depth-2
ancestor, `r/d` gets a directory cache-update event. -/
theorem refresh_ancestors_first_witness :
    REvent.dirUpdate ["r", "d"]
      ∈ Main.refreshEvents (fun q => decide (q.length = 2)) [["r", "d", "f"]] [] :=
  refresh_ancestors_first.2.1 (fun q => decide (q.length = 2)) [["r", "d", "f"]] []
    ["r", "d", "f"] ["r", "d"] (by decide) (by decide) (by decide)


/-- One-step unfolding of the stash loop. -/
theorem stashGo_cons_eq (fs : Fs) (anchor newAnchor : PathParts) (written : PathParts → Nat)
    (q : PathParts) (qs : List PathParts) :
    Main.stashGo fs anchor newAnchor written (q :: qs)
      = match lookupFs fs (anchor ++ q) with
        | none => Except.error "missing source path"
        | some se =>
          if se.isDir then
            (Main.stashGo fs anchor newAnchor written qs).map
              (fun rest => ⟨newAnchor ++ q, true, 0, se.meta⟩ :: rest)
          else
            if checksum se.content = checksum (written (anchor ++ q)) then
              (Main.stashGo fs anchor newAnchor written qs).map
                (fun rest => ⟨newAnchor ++ q, false, written (anchor ++ q), se.meta⟩ :: rest)
            else Except.error "checksum mismatch" := rfl

/-- The stash loop on an item whose source is missing. -/
theorem stashGo_cons_none (fs : Fs) (anchor newAnchor : PathParts) (written : PathParts → Nat)
    (q : PathParts) (qs : List PathParts) (hl : lookupFs fs (anchor ++ q) = none) :
    Main.stashGo fs anchor newAnchor written (q :: qs) = Except.error "missing source path" := by
  rw [stashGo_cons_eq, hl]

/-- The stash loop on an item with an existing source entry. -/
theorem stashGo_cons_some (fs : Fs) (anchor newAnchor : PathParts) (written : PathParts → Nat)
    (q : PathParts) (qs : List PathParts) (se : FsEntry)
    (hl : lookupFs fs (anchor ++ q) = some se) :
    Main.stashGo fs anchor newAnchor written (q :: qs)
      = if se.isDir then
          (Main.stashGo fs anchor newAnchor written qs).map
            (fun rest => ⟨newAnchor ++ q, true, 0, se.meta⟩ :: rest)
        else
          if checksum se.content = checksum (written (anchor ++ q)) then
            (Main.stashGo fs anchor newAnchor written qs).map
              (fun rest => ⟨newAnchor ++ q, false, written (anchor ++ q), se.meta⟩ :: rest)
          else Except.error "checksum mismatch" := by
  rw [stashGo_cons_eq, hl]

/-- Characterization of the entries produced by a successful stash pass: each
one mirrors a source entry at `anchor ++ q` for some processed item `q`
(directories as placeholders, files as checksum-verified content copies). -/
theorem stashGo_mem {fs : Fs} {anchor newAnchor : PathParts} {written : PathParts → Nat} :
    ∀ {qs : List PathParts} {entries : List FsEntry},
      Main.stashGo fs anchor newAnchor written qs = Except.ok entries →
      ∀ e ∈ entries, ∃ q ∈ qs, ∃ se, lookupFs fs (anchor ++ q) = some se ∧
        e.parts = newAnchor ++ q ∧ e.meta = se.meta ∧
        ((se.isDir = true ∧ e.isDir = true ∧ e.content = 0) ∨
         (se.isDir = false ∧ e.isDir = false ∧
           checksum se.content = checksum e.content ∧ e.content = written (anchor ++ q))) := by
  intro qs
  induction qs with
  | nil =>
    intro entries h e he
    have hent : ([] : List FsEntry) = entries := Except.ok.inj h
    rw [← hent] at he
    cases he
  | cons q qs ih =>
    intro entries h e he
    cases hl : lookupFs fs (anchor ++ q) with
    | none =>
      rw [stashGo_cons_none fs anchor newAnchor written q qs hl] at h
      cases h
    | some se =>
      rw [stashGo_cons_some fs anchor newAnchor written q qs se hl] at h
      cases hdir : se.isDir with
      | true =>
        rw [if_pos hdir] at h
        cases hrec : Main.stashGo fs anchor newAnchor written qs with
        | error s =>
          rw [hrec] at h
          cases h
        | ok rest =>
          rw [hrec] at h
          simp only [Except.map] at h
          have hent : (⟨newAnchor ++ q, true, 0, se.meta⟩ : FsEntry) :: rest = entries :=
            Except.ok.inj h
          rw [← hent] at he
          rcases List.mem_cons.1 he with rfl | hrest
          · exact ⟨q, List.mem_cons_self q qs, se, hl, rfl, rfl, Or.inl ⟨hdir, rfl, rfl⟩⟩
          · obtain ⟨q', hq', se', rest'⟩ := ih hrec e hrest
            exact ⟨q', List.mem_cons_of_mem q hq', se', rest'⟩
      | false =>
        rw [if_neg (by rw [hdir]; exact Bool.false_ne_true)] at h
        by_cases hchk : checksum se.content = checksum (written (anchor ++ q))
        · rw [if_pos hchk] at h
          cases hrec : Main.stashGo fs anchor newAnchor written qs with
          | error s =>
            rw [hrec] at h
            cases h
          | ok rest =>
            rw [hrec] at h
            simp only [Except.map] at h
            have hent :
                (⟨newAnchor ++ q, false, written (anchor ++ q), se.meta⟩ : FsEntry) :: rest
                  = entries :=
              Except.ok.inj h
            rw [← hent] at he
            rcases List.mem_cons.1 he with rfl | hrest
            · exact ⟨q, List.mem_cons_self q qs, se, hl, rfl, rfl,
                Or.inr ⟨hdir, rfl, hchk, rfl⟩⟩
            · obtain ⟨q', hq', se', rest'⟩ := ih hrec e hrest
              exact ⟨q', List.mem_cons_of_mem q hq', se', rest'⟩
        · rw [if_neg hchk] at h
          cases h

/-- A successful stash pass has looked up every item and, for each file item,
passed the checksum comparison. -/
theorem stashGo_ok_sources {fs : Fs} {anchor newAnchor : PathParts} {written : PathParts → Nat} :
    ∀ {qs : List PathParts} {entries : List FsEntry},
      Main.stashGo fs anchor newAnchor written qs = Except.ok entries →
      ∀ q ∈ qs, ∃ se, lookupFs fs (anchor ++ q) = some se ∧
        (se.isDir = true ∨ checksum se.content = checksum (written (anchor ++ q))) := by
  intro qs
  induction qs with
  | nil =>
    intro entries _ q hq
    cases hq
  | cons q0 qs ih =>
    intro entries h q hq
    cases hl : lookupFs fs (anchor ++ q0) with
    | none =>
      rw [stashGo_cons_none fs anchor newAnchor written q0 qs hl] at h
      cases h
    | some se =>
      rw [stashGo_cons_some fs anchor newAnchor written q0 qs se hl] at h
      cases hdir : se.isDir with
      | true =>
        rw [if_pos hdir] at h
        cases hrec : Main.stashGo fs anchor newAnchor written qs with
        | error s =>
          rw [hrec] at h
          cases h
        | ok rest =>
          rcases List.mem_cons.1 hq with rfl | hqs
          · exact ⟨se, hl, Or.inl hdir⟩
          · exact ih hrec q hqs
      | false =>
        rw [if_neg (by rw [hdir]; exact Bool.false_ne_true)] at h
        by_cases hchk : checksum se.content = checksum (written (anchor ++ q0))
        · rw [if_pos hchk] at h
          cases hrec : Main.stashGo fs anchor newAnchor written qs with
          | error s =>
            rw [hrec] at h
            cases h
          | ok rest =>
            rcases List.mem_cons.1 hq with rfl | hqs
            · exact ⟨se, hl, Or.inr hchk⟩
            · exact ih hrec q hqs
        · rw [if_neg hchk] at h
          cases h

/-- Decomposition of a successful `Main.stash`. -/
theorem stash_ok_elim {fs : Fs} {anchor : PathParts} {ts : String} {written : PathParts → Nat}
    {paths : List PathParts} {fs' : Fs}
    (h : Main.stash fs anchor ts written paths = Except.ok fs') :
    ∃ ae entries, lookupFs fs anchor = some ae ∧
      Main.stashGo fs anchor (Main.newAnchorOf anchor ts) written
        (Main.stashItems anchor paths) = Except.ok entries ∧
      fs' = fs ++ ⟨Main.newAnchorOf anchor ts, true, 0, ae.meta⟩ :: entries := by
  have hstep : Main.stash fs anchor ts written paths
      = match lookupFs fs anchor with
        | none => Except.error "missing anchor"
        | some ae =>
          (Main.stashGo fs anchor (Main.newAnchorOf anchor ts) written
              (Main.stashItems anchor paths)).map
            (fun entries =>
              fs ++ ⟨Main.newAnchorOf anchor ts, true, 0, ae.meta⟩ :: entries) := rfl
  rw [hstep] at h
  cases hae : lookupFs fs anchor with
  | none =>
    rw [hae] at h
    cases h
  | some ae =>
    rw [hae] at h
    cases hgo : Main.stashGo fs anchor (Main.newAnchorOf anchor ts) written
        (Main.stashItems anchor paths) with
    | error s =>
      rw [hgo] at h
      cases h
    | ok entries =>
      rw [hgo] at h
      simp only [Except.map] at h
      exact ⟨ae, entries, rfl, rfl, (Except.ok.inj h).symm⟩

/-- Each requested path's anchor-relative parts are among the stash items. -/
theorem relp_mem_stashItems {anchor : PathParts} {paths : List PathParts} {p : PathParts}
    (hp : p ∈ paths) : p.drop anchor.length ∈ Main.stashItems anchor paths := by
  unfold Main.stashItems
  refine (List.mem_insertionSort _).2 (List.mem_dedup.2 ?_)
  exact List.mem_flatMap.2
    ⟨p.drop anchor.length, List.mem_map_of_mem _ hp, List.mem_cons_self _ _⟩

/-- **C8.** For every file copied into a stash the checksums of source and
copy are compared and a mismatch aborts the stash (an assertion failure), so
whenever `stash` completes normally every stashed file entry's checksum equals
its source's checksum; a requested file whose copy would not match prevents
any normal completion. -/
theorem stash_checksum_hard_failure :
    (∀ (fs : Fs) (anchor : PathParts) (ts : String) (written : PathParts → Nat)
        (paths : List PathParts) (fs' : Fs),
      Main.stash fs anchor ts written paths = Except.ok fs' →
      ∀ e ∈ fs', e ∉ fs → e.isDir = false →
        ∃ q, e.parts = Main.newAnchorOf anchor ts ++ q ∧
          ∃ se, lookupFs fs (anchor ++ q) = some se ∧
            checksum e.content = checksum se.content) ∧
    (∀ (fs : Fs) (anchor : PathParts) (ts : String) (written : PathParts → Nat)
        (paths : List PathParts) (p : PathParts) (e : FsEntry),
      p ∈ paths → anchor <+: p → lookupFs fs p = some e → e.isDir = false →
      checksum (written p) ≠ checksum e.content →
      ∀ fs', Main.stash fs anchor ts written paths ≠ Except.ok fs') := by
  constructor
  · intro fs anchor ts written paths fs' h e he henotin hdir
    obtain ⟨ae, entries, hae, hgo, hfs'⟩ := stash_ok_elim h
    rw [hfs'] at he
    rcases List.mem_append.1 he with hin | hnew
    · exact absurd hin henotin
    · rcases List.mem_cons.1 hnew with rfl | hent
      · cases hdir
      · obtain ⟨q, hq, se, hl, hparts, hmeta, hcase⟩ := stashGo_mem hgo e hent
        rcases hcase with ⟨hsd, hed, _⟩ | ⟨hsd, hed, hchk, hwr⟩
        · rw [hed] at hdir
          cases hdir
        · exact ⟨q, hparts, se, hl, hchk.symm⟩
  · intro fs anchor ts written paths p e hp hpre hl hdir hne fs' h
    obtain ⟨ae, entries, hae, hgo, hfs'⟩ := stash_ok_elim h
    obtain ⟨t, ht⟩ := hpre
    have hdropped : anchor ++ p.drop anchor.length = p := by
      rw [← ht]
      simp
    obtain ⟨se, hl', hcase⟩ :=
      stashGo_ok_sources hgo (p.drop anchor.length) (relp_mem_stashItems hp)
    rw [hdropped] at hl' hcase
    rw [hl] at hl'
    have hse : e = se := Option.some.inj hl'
    rw [← hse] at hcase
    rcases hcase with hd | hchk
    · rw [hdir] at hd
      cases hd
    · exact hne hchk.symm

/-- Witness for C8: a faulty copy (6 written for source content 5) prevents
the stash from completing normally. -/
theorem stash_checksum_hard_failure_witness :
    Main.stash [⟨["r"], true, 0, 0⟩, ⟨["r", "f"], false, 5, 1⟩] ["r"] "T"
        (fun _ => 6) [["r", "f"]]
      ≠ Except.ok [] :=
  stash_checksum_hard_failure.2 [⟨["r"], true, 0, 0⟩, ⟨["r", "f"], false, 5, 1⟩]
    ["r"] "T" (fun _ => 6) [["r", "f"]] ["r", "f"] ⟨["r", "f"], false, 5, 1⟩
    (by decide) ⟨["f"], rfl⟩ rfl rfl (by decide) []

/-- A lookup that succeeds in a front segment is unaffected by appended
entries. -/
theorem lookupFs_append_left {fs1 : Fs} {p : PathParts} (fs2 : Fs)
    (h : (lookupFs fs1 p).isSome = true) :
    lookupFs (fs1 ++ fs2) p = lookupFs fs1 p := by
  unfold lookupFs at h ⊢
  rw [List.find?_append]
  cases hf : fs1.find? (fun e => decide (e.parts = p)) with
  | none =>
    rw [hf] at h
    cases h
  | some e => rfl

/-- Overwriting at `path` makes the lookup at `path` return the new entry
(map branch of `fsWrite`). -/
theorem find?_map_overwrite (fs : Fs) (path : PathParts) (c m : Nat)
    (hany : fs.any (fun e => decide (e.parts = path)) = true) :
    (fs.map (fun e => if e.parts = path then (⟨path, false, c, m⟩ : FsEntry) else e)).find?
        (fun e => decide (e.parts = path)) = some ⟨path, false, c, m⟩ := by
  induction fs with
  | nil => cases hany
  | cons e es ih =>
    by_cases hep : e.parts = path
    · rw [List.map_cons, if_pos hep]
      exact List.find?_cons_of_pos _ (by simp)
    · rw [List.map_cons, if_neg hep]
      rw [List.find?_cons_of_neg _ (by simp [hep])]
      refine ih ?_
      rcases List.any_eq_true.1 hany with ⟨x, hx, hxp⟩
      rcases List.mem_cons.1 hx with rfl | hxs
      · exact absurd (of_decide_eq_true hxp) hep
      · exact List.any_eq_true.2 ⟨x, hxs, hxp⟩

/-- Overwriting at `path` leaves lookups at other paths unchanged
(map branch of `fsWrite`). -/
theorem find?_map_overwrite_ne (fs : Fs) (path q : PathParts) (c m : Nat) (hne : q ≠ path) :
    (fs.map (fun e => if e.parts = path then (⟨path, false, c, m⟩ : FsEntry) else e)).find?
        (fun e => decide (e.parts = q))
      = fs.find? (fun e => decide (e.parts = q)) := by
  induction fs with
  | nil => rfl
  | cons e es ih =>
    rw [List.map_cons]
    by_cases hep : e.parts = path
    · rw [if_pos hep]
      rw [List.find?_cons_of_neg _ (by simp [Ne.symm hne]),
        List.find?_cons_of_neg _ (by simp [hep, Ne.symm hne])]
      exact ih
    · rw [if_neg hep]
      by_cases heq : e.parts = q
      · rw [List.find?_cons_of_pos _ (by simp [heq]), List.find?_cons_of_pos _ (by simp [heq])]
      · rw [List.find?_cons_of_neg _ (by simp [heq]), List.find?_cons_of_neg _ (by simp [heq])]
        exact ih

/-- `fsWrite` installs the written entry at `path`. -/
theorem lookupFs_fsWrite_self (fs : Fs) (path : PathParts) (c m : Nat) :
    lookupFs (fsWrite fs path c m) path = some ⟨path, false, c, m⟩ := by
  unfold fsWrite lookupFs
  by_cases hany : fs.any (fun e => decide (e.parts = path)) = true
  · rw [if_pos hany]
    exact find?_map_overwrite fs path c m hany
  · rw [if_neg hany]
    rw [List.find?_append]
    have hnone : fs.find? (fun e => decide (e.parts = path)) = none := by
      rw [List.find?_eq_none]
      intro x hx hpx
      exact hany (List.any_eq_true.2 ⟨x, hx, hpx⟩)
    rw [hnone]
    simp [List.find?]

/-- `fsWrite` at `path` does not disturb lookups at other paths. -/
theorem lookupFs_fsWrite_ne (fs : Fs) (path q : PathParts) (c m : Nat) (hne : q ≠ path) :
    lookupFs (fsWrite fs path c m) q = lookupFs fs q := by
  unfold fsWrite lookupFs
  by_cases hany : fs.any (fun e => decide (e.parts = path)) = true
  · rw [if_pos hany]
    exact find?_map_overwrite_ne fs path q c m hne
  · rw [if_neg hany]
    rw [List.find?_append]
    cases hf : fs.find? (fun e => decide (e.parts = q)) with
    | some e => rfl
    | none =>
      simp [List.find?, Ne.symm hne]

/-- The restore step with no matching stash entry. -/
theorem restoreStep_none {rcs : Fs} {anchor : PathParts} {acc : Fs} {path : PathParts}
    (h : rcs.find? (fun e => sliceTailEq e.parts (path.drop anchor.length)) = none) :
    Main.restoreStep rcs anchor acc path = acc := by
  unfold Main.restoreStep
  rw [h]

/-- The restore step with a matching stash entry. -/
theorem restoreStep_some {rcs : Fs} {anchor : PathParts} {acc : Fs} {path : PathParts}
    {e : FsEntry}
    (h : rcs.find? (fun e => sliceTailEq e.parts (path.drop anchor.length)) = some e) :
    Main.restoreStep rcs anchor acc path = fsWrite acc path e.content e.meta := by
  unfold Main.restoreStep
  rw [h]

/-- The restore fold preserves original content and metadata at every
requested path, provided every stash entry matching a requested path's
trailing components carries that path's original content and metadata. -/
theorem restore_foldl_invariant (fs : Fs) (rcs : Fs) (anchor : PathParts)
    (paths : List PathParts)
    (hmatch : ∀ p ∈ paths, ∀ e ∈ rcs,
      sliceTailEq e.parts (p.drop anchor.length) = true →
      e.content = contentAt fs p ∧ e.meta = metaAt fs p) :
    ∀ (todo : List PathParts) (acc : Fs),
      (∀ x ∈ todo, x ∈ paths) →
      (∀ p ∈ paths, contentAt acc p = contentAt fs p ∧ metaAt acc p = metaAt fs p ∧
        (lookupFs acc p).isSome = true) →
      ∀ p ∈ paths,
        contentAt (todo.foldl (Main.restoreStep rcs anchor) acc) p = contentAt fs p ∧
        metaAt (todo.foldl (Main.restoreStep rcs anchor) acc) p = metaAt fs p := by
  intro todo
  induction todo with
  | nil =>
    intro acc _ hgood p hp
    exact ⟨(hgood p hp).1, (hgood p hp).2.1⟩
  | cons x todo ih =>
    intro acc hsub hgood p hp
    rw [List.foldl_cons]
    have hx : x ∈ paths := hsub x (List.mem_cons_self x todo)
    refine ih _ (fun y hy => hsub y (List.mem_cons_of_mem x hy)) ?_ p hp
    intro r hr
    cases hf : rcs.find? (fun e => sliceTailEq e.parts (x.drop anchor.length)) with
    | none =>
      rw [restoreStep_none hf]
      exact hgood r hr
    | some e =>
      rw [restoreStep_some hf]
      have heRcs : e ∈ rcs := List.mem_of_find?_eq_some hf
      have hpred : sliceTailEq e.parts (x.drop anchor.length) = true :=
        @List.find?_some FsEntry (fun e => sliceTailEq e.parts (x.drop anchor.length)) e rcs hf
      obtain ⟨hec, hem⟩ := hmatch x hx e heRcs hpred
      by_cases hrx : r = x
      · subst hrx
        refine ⟨?_, ?_, ?_⟩
        · unfold contentAt
          rw [lookupFs_fsWrite_self]
          simpa using hec
        · unfold metaAt
          rw [lookupFs_fsWrite_self]
          simpa using hem
        · rw [lookupFs_fsWrite_self]
          rfl
      · obtain ⟨h1, h2, h3⟩ := hgood r hr
        have hlr := lookupFs_fsWrite_ne acc x r e.content e.meta hrx
        refine ⟨?_, ?_, ?_⟩
        · unfold contentAt
          rw [hlr]
          exact h1
        · unfold metaAt
          rw [hlr]
          exact h2
        · rw [hlr]
          exact h3

/-- **C4** (amended): if a stash of `paths` completes normally, no prior
entries live under the stash base, every requested path exists locally and
lies strictly under the anchor, and no stash entry's trailing components
collide with a *different* requested path's relative parts, then restoring
the same paths reproduces the original content and cached metadata at every
requested path. -/
theorem stash_restore_roundtrip
    (fs fs' : Fs) (anchor : PathParts) (ts : String) (written : PathParts → Nat)
    (paths : List PathParts)
    (hstash : Main.stash fs anchor ts written paths = Except.ok fs')
    (hclean : ∀ e ∈ fs, isUnder (Main.stashBaseOf anchor) e.parts = false)
    (hfile : ∀ p ∈ paths, (lookupFs fs p).isSome = true)
    (hpre : ∀ p ∈ paths, anchor <+: p)
    (hnoamb : ∀ p ∈ paths, ∀ q ∈ Main.stashItems anchor paths,
      sliceTailEq (Main.newAnchorOf anchor ts ++ q) (p.drop anchor.length) = true →
      q = p.drop anchor.length) :
    ∀ p ∈ paths,
      contentAt (Main.restore fs' anchor paths) p = contentAt fs p ∧
      metaAt (Main.restore fs' anchor paths) p = metaAt fs p := by
  obtain ⟨ae, entries, hae, hgo, hfs'⟩ := stash_ok_elim hstash
  have hmatch : ∀ p ∈ paths, ∀ e ∈ Main.restoreRcs fs' anchor,
      sliceTailEq e.parts (p.drop anchor.length) = true →
      e.content = contentAt fs p ∧ e.meta = metaAt fs p := by
    intro p hp e he hsl
    have he' : e ∈ fs'.filter
        (fun e => isUnder (Main.stashBaseOf anchor) e.parts && !e.isDir) := by
      unfold Main.restoreRcs at he
      exact (List.mem_insertionSort _).1 he
    have hef : e ∈ fs' := List.mem_of_mem_filter he'
    have hcond : isUnder (Main.stashBaseOf anchor) e.parts = true ∧ (!e.isDir) = true := by
      simpa [Bool.and_eq_true] using List.of_mem_filter he'
    have hunder : isUnder (Main.stashBaseOf anchor) e.parts = true := hcond.1
    have hnd : e.isDir = false := by
      have hb := hcond.2
      cases hdd : e.isDir
      · rfl
      · rw [hdd] at hb
        cases hb
    rw [hfs'] at hef
    rcases List.mem_append.1 hef with hin | hnew
    · rw [hclean e hin] at hunder
      cases hunder
    · rcases List.mem_cons.1 hnew with rfl | hent
      · cases hnd
      · obtain ⟨q, hq, se, hl, hparts, hmeta, hcase⟩ := stashGo_mem hgo e hent
        rcases hcase with ⟨hsd, hed, _⟩ | ⟨hsd, hed, hchk, hwr⟩
        · rw [hed] at hnd
          cases hnd
        · have hq' : q = p.drop anchor.length := by
            refine hnoamb p hp q hq ?_
            rw [← hparts]
            exact hsl
          obtain ⟨t, ht⟩ := hpre p hp
          have hdropped : anchor ++ p.drop anchor.length = p := by
            rw [← ht]
            simp
          rw [hq', hdropped] at hl
          have hcontent : se.content = e.content := hchk
          constructor
          · rw [← hcontent]
            unfold contentAt
            rw [hl]
            rfl
          · rw [hmeta]
            unfold metaAt
            rw [hl]
            rfl
  have hinit : ∀ p ∈ paths, contentAt fs' p = contentAt fs p ∧ metaAt fs' p = metaAt fs p ∧
      (lookupFs fs' p).isSome = true := by
    intro p hp
    have hfp := hfile p hp
    rw [hfs']
    have hl := lookupFs_append_left
      (⟨Main.newAnchorOf anchor ts, true, 0, ae.meta⟩ :: entries) hfp
    refine ⟨?_, ?_, ?_⟩
    · unfold contentAt
      rw [hl]
    · unfold metaAt
      rw [hl]
    · rw [hl]
      exact hfp
  intro p hp
  exact restore_foldl_invariant fs (Main.restoreRcs fs' anchor) anchor paths hmatch paths fs'
    (fun x hx => hx) hinit p hp

/-- **C4 counterexample.** Stashing `a/b` (content 1) and `x/a/b` (content 2)
together and then restoring both does not reproduce `a/b`'s content: the
stash entry of `x/a/b` also matches `a/b`'s trailing components and sorts
first in the descending scan, so content 2 is copied onto `a/b`. -/
theorem stash_restore_not_roundtrip :
    (Main.stash exFs exAnchor "T1" exWritten [exP1, exP2]).toOption.map
        (fun fs1 => contentAt (Main.restore fs1 exAnchor [exP1, exP2]) exP1) = some 2 ∧
    contentAt exFs exP1 = 1 := by
  constructor
  · decide
  · decide

/-- Witness for the amended C4: a collision-free stash of `x/a/b` restores
byte-identical content and identical cached metadata. -/
theorem stash_restore_roundtrip_witness :
    exP2 ∈ [exP2] ∧
    contentAt (Main.restore exStash2 exAnchor [exP2]) exP2 = contentAt exFs exP2 ∧
    metaAt (Main.restore exStash2 exAnchor [exP2]) exP2 = metaAt exFs exP2 :=
  ⟨List.mem_cons_self _ _,
   (stash_restore_roundtrip exFs exStash2 exAnchor "T1" exWritten [exP2] rfl
      (by decide) (by decide) (by decide) (by decide) exP2 (List.mem_cons_self _ _)).1,
   (stash_restore_roundtrip exFs exStash2 exAnchor "T1" exWritten [exP2] rfl
      (by decide) (by decide) (by decide) (by decide) exP2 (List.mem_cons_self _ _)).2⟩
